import Mathlib

/-!
Verification of the Sani inline-markup pipeline.

The development shallowly embeds the three source files:

* `src/formatting.rs` — `Format`, a bit-set of three style flags
  (bold, italic, strikethrough) with `get_codes_for_format_change`,
  `get_start_codes`, `get_end_codes` and the toggle/set operations.
* `src/markdown.rs` — `Paragraph::new`, the single-pass inline scanner
  producing `(slice, Format)` run pairs, and `Paragraph::render`, the
  style-diff renderer.
* `src/lib.rs` — `parse` (split the document on `"\n\n"`) and `render`
  (concatenate each element's rendering followed by `"\n\n"`).

Text is modelled as `List Char` (Rust iterates by Unicode scalar value via
`char_indices`).  The scanner's running state — `current_slice_start`
pointing into the input — is modelled by carrying the pending
not-yet-flushed slice explicitly; a second, index-based embedding
(`scanIdxLoop`) keeps the source's numeric slicing with explicit bounds
checks and is proved total and equivalent.
-/

namespace Sani

/-- The style bit-set of `src/formatting.rs` (`FormatFlags`: BOLD, ITALIC,
STRIKETHROUGH), wrapped as `Format`.  Modelled as three independent
booleans. -/
structure Format where
  bold : Bool
  italic : Bool
  strikethrough : Bool
deriving DecidableEq, Repr

/-- `Format::new`: the empty format (`FormatFlags::empty()`). -/
def Format.new : Format := ⟨false, false, false⟩

/-- `bitflags`' `difference`: the flags set in `a` but not in `b`. -/
def Format.difference (a b : Format) : Format :=
  ⟨a.bold && !b.bold, a.italic && !b.italic, a.strikethrough && !b.strikethrough⟩

/-- `Format::get_start_codes`: start codes of every set flag, in the order
bold, italic, strikethrough. -/
def Format.get_start_codes (self : Format) : String :=
  (if self.bold then "\x1b[1m" else "")
    ++ (if self.italic then "\x1b[3m" else "")
    ++ (if self.strikethrough then "\x1b[9m" else "")

/-- `Format::get_end_codes`: end codes of every set flag, in the order
bold, italic, strikethrough. -/
def Format.get_end_codes (self : Format) : String :=
  (if self.bold then "\x1b[22m" else "")
    ++ (if self.italic then "\x1b[23m" else "")
    ++ (if self.strikethrough then "\x1b[29m" else "")

/-- `Format::get_codes_for_format_change(self, previous_format)`: end codes
for the discontinued flags (`previous \ self`) followed by start codes for
the new flags (`self \ previous`). -/
def Format.get_codes_for_format_change (self previous_format : Format) : String :=
  (Format.difference previous_format self).get_end_codes
    ++ (Format.difference self previous_format).get_start_codes

/-- `Format::toggle_bold` (mutation modelled by returning the new value). -/
def Format.toggle_bold (self : Format) : Format := { self with bold := !self.bold }

/-- `Format::toggle_italic`. -/
def Format.toggle_italic (self : Format) : Format := { self with italic := !self.italic }

/-- `Format::toggle_strikethrough`. -/
def Format.toggle_strikethrough (self : Format) : Format :=
  { self with strikethrough := !self.strikethrough }

/-- `Format::set_bold`. -/
def Format.set_bold (self : Format) : Format := { self with bold := true }

/-- `Format::set_italic`. -/
def Format.set_italic (self : Format) : Format := { self with italic := true }

/-- `Format::set_strikethrough`. -/
def Format.set_strikethrough (self : Format) : Format :=
  { self with strikethrough := true }

/-- The scanner loop of `Paragraph::new` (`src/markdown.rs` lines 21–85).
The remaining input is the first argument; `pending` is the slice
`text[current_slice_start..char_index]` accumulated so far, and `acc` the
`render_slices` pushed so far.  Each branch mirrors one arm of the source
`match`:

* `'\\'`: push the pending slice; the next character (consumed by the
  iterator) becomes the start of the next slice; at end-of-input the
  `unwrap_or` makes `current_slice_start` point past the backslash so the
  final push outside the loop adds nothing.
* `'\n'`: push the pending slice with a single space appended.
* `'*'`: push the pending slice, then look at `char_indices.next()`: a
  second `'*'` toggles bold and the slice restarts after it; otherwise
  italic is toggled and the slice restarts at the character the iterator
  just consumed (`current_slice_start = char_index + 1`).
* `'~'`: `char_indices.next()` is consumed first; only when it is a second
  `'~'` is the pending slice pushed and strikethrough toggled; otherwise
  nothing is pushed and both the tilde and the consumed character stay in
  the pending slice.
* any other character accumulates into the pending slice.

At end-of-input the final slice is pushed when `current_slice_start` is not
at the end, i.e. when the pending slice is non-empty. -/
def scanLoop : List Char → Format → List Char → List (List Char × Format) →
    List (List Char × Format)
  | [], fmt, pending, acc =>
      if pending = [] then acc else acc ++ [(pending, fmt)]
  | '\\' :: rest, fmt, pending, acc =>
      match rest with
      | [] => scanLoop [] fmt [] (acc ++ [(pending, fmt)])
      | c :: rest2 => scanLoop rest2 fmt [c] (acc ++ [(pending, fmt)])
  | '\n' :: rest, fmt, pending, acc =>
      scanLoop rest fmt [] (acc ++ [(pending ++ [' '], fmt)])
  | '*' :: rest, fmt, pending, acc =>
      match rest with
      | [] => scanLoop [] (Format.toggle_italic fmt) [] (acc ++ [(pending, fmt)])
      | c :: rest2 =>
          if c = '*' then
            scanLoop rest2 (Format.toggle_bold fmt) [] (acc ++ [(pending, fmt)])
          else
            scanLoop rest2 (Format.toggle_italic fmt) [c] (acc ++ [(pending, fmt)])
  | '~' :: rest, fmt, pending, acc =>
      match rest with
      | [] => scanLoop [] fmt (pending ++ ['~']) acc
      | c :: rest2 =>
          if c = '~' then
            scanLoop rest2 (Format.toggle_strikethrough fmt) []
              (acc ++ [(pending, fmt)])
          else
            scanLoop rest2 fmt (pending ++ ['~', c]) acc
  | c :: rest, fmt, pending, acc =>
      scanLoop rest fmt (pending ++ [c]) acc

/-- `Paragraph` (`src/markdown.rs`): the list of `render_slices`. -/
structure Paragraph where
  render_slices : List (List Char × Format)
deriving DecidableEq, Repr

/-- `Paragraph::new`: run the scanner loop from empty state, then
`retain(|elem| !elem.0.is_empty())`. -/
def Paragraph.new (text : List Char) : Paragraph :=
  ⟨(scanLoop text Format.new [] []).filter (fun elem => !elem.1.isEmpty)⟩

/-- The rendering loop of `Paragraph::render` (`src/markdown.rs` lines
95–107): for each slice emit the format-change codes from
`previous_format` followed by the slice text, and close up any hanging
formatting with a final change back to `Format::new`. -/
def renderLoop : Format → List (List Char × Format) → String
  | previous_format, [] =>
      Format.get_codes_for_format_change Format.new previous_format
  | previous_format, (slice, format) :: rest =>
      Format.get_codes_for_format_change format previous_format
        ++ String.mk slice ++ renderLoop format rest

/-- `Paragraph::render`. -/
def Paragraph.render (self : Paragraph) : String :=
  renderLoop Format.new self.render_slices

/-- Rust `str::split` with the two-character pattern `"\n\n"`
(`src/lib.rs` line 10): leftmost-first non-overlapping matches; the input
is cut at every match and always yields at least the part scanned so far,
so `""` splits into `[""]`. `cur` is the part accumulated since the last
match. -/
def splitNN : List Char → List Char → List (List Char)
  | '\n' :: '\n' :: rest, cur => cur :: splitNN rest []
  | c :: rest, cur => splitNN rest (cur ++ [c])
  | [], cur => [cur]

/-- `parse` (`src/lib.rs`): one `Paragraph::new` per `"\n\n"`-separated
part. -/
def parse (text : List Char) : List Paragraph :=
  (splitNN text []).map Paragraph.new

/-- `render` (`src/lib.rs`): concatenate each element's rendering followed
by `"\n\n"`. -/
def render (elements : List Paragraph) : String :=
  elements.foldl (fun output element => output ++ element.render ++ "\n\n") ""

/-- Checked slicing `text[a..b]`: `some` of the characters in positions
`[a, b)` when `a ≤ b ≤ text.length`, `none` (Rust: a panic) otherwise. -/
def slice? (text : List Char) (a b : Nat) : Option (List Char) :=
  if a ≤ b ∧ b ≤ text.length then some ((text.drop a).take (b - a)) else none

/-- Index-based embedding of the scanner loop of `Paragraph::new`, keeping
the source's numeric `current_slice_start` / `char_index` state and its
`text[a..b]` slicing (checked by `slice?`, so any out-of-range slice —
Rust: a panic — surfaces as `none`).  `i` is the scan position, `start`
is `current_slice_start`.  `fuel` bounds the loop (the Rust loop consumes
at least one character per iteration); `none` from exhausted fuel cannot
occur when called with `text.length + 1` (proved in `scanIdxLoop_eq`). -/
def scanIdxLoop (text : List Char) :
    Nat → Nat → Nat → Format → List (List Char × Format) →
    Option (List (List Char × Format))
  | 0, _, _, _, _ => none
  | fuel + 1, i, start, fmt, acc =>
    match text.get? i with
    | none =>
        if start = text.length then some acc
        else (slice? text start text.length).map (fun s => acc ++ [(s, fmt)])
    | some '\\' =>
        match text.get? (i + 1) with
        | some _ => (slice? text start i).bind
            (fun s => scanIdxLoop text fuel (i + 2) (i + 1) fmt (acc ++ [(s, fmt)]))
        | none => (slice? text start i).bind
            (fun s => scanIdxLoop text fuel (i + 1) (i + 1) fmt (acc ++ [(s, fmt)]))
    | some '\n' =>
        (slice? text start i).bind
          (fun s =>
            scanIdxLoop text fuel (i + 1) (i + 1) fmt (acc ++ [(s ++ [' '], fmt)]))
    | some '*' =>
        (slice? text start i).bind (fun s =>
          match text.get? (i + 1) with
          | some c =>
              if c = '*' then
                scanIdxLoop text fuel (i + 2) (i + 2) (Format.toggle_bold fmt)
                  (acc ++ [(s, fmt)])
              else
                scanIdxLoop text fuel (i + 2) (i + 1) (Format.toggle_italic fmt)
                  (acc ++ [(s, fmt)])
          | none =>
              scanIdxLoop text fuel (i + 1) (i + 1) (Format.toggle_italic fmt)
                (acc ++ [(s, fmt)]))
    | some '~' =>
        match text.get? (i + 1) with
        | some c =>
            if c = '~' then
              (slice? text start i).bind (fun s =>
                scanIdxLoop text fuel (i + 2) (i + 2)
                  (Format.toggle_strikethrough fmt) (acc ++ [(s, fmt)]))
            else scanIdxLoop text fuel (i + 2) start fmt acc
        | none => scanIdxLoop text fuel (i + 1) start fmt acc
    | some _ => scanIdxLoop text fuel (i + 1) start fmt acc

/-- The index-based scanner: run from position 0 with enough fuel for the
whole input, then drop empty slices as `Paragraph::new` does. -/
def scanIdx (text : List Char) : Option (List (List Char × Format)) :=
  (scanIdxLoop text (text.length + 1) 0 0 Format.new []).map
    (List.filter (fun elem => !elem.1.isEmpty))

/-- The ordered list of (previous, current) style pairs for which
`renderLoop` emits `get_codes_for_format_change current previous`: one
pair per run, plus the final closing pair back to `Format.new`.  (The
correspondence with `renderLoop` is proved in
`renderLoop_eq_interleave`.) -/
def renderTransitions : Format → List (List Char × Format) → List (Format × Format)
  | previous_format, [] => [(previous_format, Format.new)]
  | previous_format, (_, format) :: rest =>
      (previous_format, format) :: renderTransitions format rest

/-- Replay a list of (source, target) style transitions from a start
state: each transition must leave from the current state, and moves to its
target; a transition leaving from a different state is rejected. -/
def replayTransitions : Format → List (Format × Format) → Option Format
  | s, [] => some s
  | s, (p, c) :: rest => if p = s then replayTransitions c rest else none

/-- Interleave transition codes with run texts: each transition's codes,
then the matching run text; the last transition (with no matching text)
contributes only its codes. -/
def interleave : List (Format × Format) → List (List Char) → String
  | (p, c) :: ts, slice :: ss =>
      Format.get_codes_for_format_change c p ++ String.mk slice ++ interleave ts ss
  | (p, c) :: _, [] => Format.get_codes_for_format_change c p
  | [], _ => ""

/-! ## Supporting lemmas -/

lemma drop_cons_of_get (text : List Char) (i : Nat) (ch : Char)
    (hgi : text.get? i = some ch) : text.drop i = ch :: text.drop (i + 1) := by
  have hi : i < text.length := List.get?_eq_some.mp hgi |>.choose
  rw [List.drop_eq_getElem_cons hi]
  have := List.get?_eq_some.mp hgi
  obtain h := this.choose_spec
  simp only [List.get_eq_getElem] at h
  rw [h]

lemma extract_snoc (text : List Char) (s i : Nat) (ch : Char) (hsi : s ≤ i)
    (hgi : text.get? i = some ch) :
    (text.drop s).take (i + 1 - s) = (text.drop s).take (i - s) ++ [ch] := by
  have h1 : i + 1 - s = (i - s) + 1 := by omega
  have h2 : s + (i - s) = i := by omega
  rw [List.get?_eq_getElem?] at hgi
  rw [h1, List.take_succ, List.getElem?_drop, h2, hgi]
  rfl

lemma extract_one (text : List Char) (j : Nat) (c : Char)
    (hgj : text.get? j = some c) : (text.drop j).take 1 = [c] := by
  have h := extract_snoc text j j c (le_refl _) hgj
  simpa using h

lemma extract_all (text : List Char) (s : Nat) :
    (text.drop s).take (text.length - s) = text.drop s := by
  have h : text.length - s = (text.drop s).length := by simp
  rw [h, List.take_length]

/-- The index-based scanner loop agrees step for step with `scanLoop`: at
position `i` with slice start `start`, the pending slice is
`text[start..i]` and the remaining input is `text.drop i`.  In particular
every `slice?` the loop performs is in bounds, so the source's
`text[a..b]` slicing never panics. -/
lemma scanIdxLoop_eq (text : List Char) :
    ∀ fuel i start fmt acc, start ≤ i → i ≤ text.length →
      text.length + 1 - i ≤ fuel →
      scanIdxLoop text fuel i start fmt acc
        = some (scanLoop (text.drop i) fmt
            ((text.drop start).take (i - start)) acc) := by
  intro fuel
  induction fuel with
  | zero => intro i start fmt acc h1 h2 h3; omega
  | succ fuel ih =>
    intro i start fmt acc hsi hil hfuel
    cases hgi : text.get? i with
    | none =>
      have hli : text.length ≤ i := List.get?_eq_none.mp hgi
      have hie : i = text.length := le_antisymm hil hli
      subst hie
      by_cases hs : start = text.length
      · subst hs
        simp [scanIdxLoop, hgi, scanLoop]
      · have hpend : (text.drop start).take (text.length - start) = text.drop start :=
          extract_all text start
        have hne : ¬(text.drop start = []) := by
          intro hc
          exact hs (le_antisymm hsi (List.drop_eq_nil_iff.mp hc))
        simp [scanIdxLoop, hgi, hs, slice?, hsi, List.drop_length, scanLoop, hpend, hne]
    | some ch =>
      have hilt : i < text.length := by
        rcases List.get?_eq_some.mp hgi with ⟨h, _⟩; exact h
      have hdropi := drop_cons_of_get text i ch hgi
      have hslice : slice? text start i
          = some ((text.drop start).take (i - start)) := by
        simp [slice?, hsi, le_of_lt hilt]
      by_cases h1 : ch = '\\'
      · subst h1
        cases hgj : text.get? (i + 1) with
        | some c =>
          have hjlt : i + 1 < text.length := by
            rcases List.get?_eq_some.mp hgj with ⟨h, _⟩; exact h
          have hdropj := drop_cons_of_get text (i + 1) c hgj
          rw [hdropi, hdropj]
          have hih := ih (i + 2) (i + 1) fmt
            (acc ++ [((text.drop start).take (i - start), fmt)])
            (by omega) (by omega) (by omega)
          have e1 : i + 2 - (i + 1) = 1 := by omega
          rw [e1, extract_one text (i + 1) c hgj] at hih
          simp only [scanIdxLoop, hgi, hgj, hslice, Option.some_bind]
          rw [hih]
          rfl
        | none =>
          have hje : i + 1 = text.length := by
            have := List.get?_eq_none.mp hgj; omega
          rw [hdropi]
          have hih := ih (i + 1) (i + 1) fmt
            (acc ++ [((text.drop start).take (i - start), fmt)])
            (by omega) (by omega) (by omega)
          have e1 : i + 1 - (i + 1) = 0 := by omega
          rw [e1] at hih
          simp only [List.take_zero] at hih
          simp only [scanIdxLoop, hgi, hgj, hslice, Option.some_bind]
          rw [hih]
          have hde : text.drop (i + 1) = [] := by
            rw [hje, List.drop_length]
          rw [hde]
          rfl
      · by_cases h2 : ch = '\n'
        · subst h2
          rw [hdropi]
          have hih := ih (i + 1) (i + 1) fmt
            (acc ++ [((text.drop start).take (i - start) ++ [' '], fmt)])
            (by omega) (by omega) (by omega)
          have e1 : i + 1 - (i + 1) = 0 := by omega
          rw [e1] at hih
          simp only [List.take_zero] at hih
          simp only [scanIdxLoop, hgi, hslice, Option.some_bind]
          rw [hih]
          rfl
        · by_cases h3 : ch = '*'
          · subst h3
            cases hgj : text.get? (i + 1) with
            | some c =>
              have hjlt : i + 1 < text.length := by
                rcases List.get?_eq_some.mp hgj with ⟨h, _⟩; exact h
              have hdropj := drop_cons_of_get text (i + 1) c hgj
              rw [hdropi, hdropj]
              by_cases hc : c = '*'
              · subst hc
                have hih := ih (i + 2) (i + 2) (Format.toggle_bold fmt)
                  (acc ++ [((text.drop start).take (i - start), fmt)])
                  (by omega) (by omega) (by omega)
                have e1 : i + 2 - (i + 2) = 0 := by omega
                rw [e1] at hih
                simp only [List.take_zero] at hih
                simp only [scanIdxLoop, hgi, hgj, hslice, Option.some_bind, if_pos rfl]
                rw [hih]
                rfl
              · have hih := ih (i + 2) (i + 1) (Format.toggle_italic fmt)
                  (acc ++ [((text.drop start).take (i - start), fmt)])
                  (by omega) (by omega) (by omega)
                have e1 : i + 2 - (i + 1) = 1 := by omega
                rw [e1, extract_one text (i + 1) c hgj] at hih
                simp only [scanIdxLoop, hgi, hgj, hslice, Option.some_bind, if_neg hc]
                rw [hih]
                simp [scanLoop, hc]
            | none =>
              have hje : i + 1 = text.length := by
                have := List.get?_eq_none.mp hgj; omega
              rw [hdropi]
              have hih := ih (i + 1) (i + 1) (Format.toggle_italic fmt)
                (acc ++ [((text.drop start).take (i - start), fmt)])
                (by omega) (by omega) (by omega)
              have e1 : i + 1 - (i + 1) = 0 := by omega
              rw [e1] at hih
              simp only [List.take_zero] at hih
              simp only [scanIdxLoop, hgi, hgj, hslice, Option.some_bind]
              rw [hih]
              have hde : text.drop (i + 1) = [] := by
                rw [hje, List.drop_length]
              rw [hde]
              rfl
          · by_cases h4 : ch = '~'
            · subst h4
              cases hgj : text.get? (i + 1) with
              | some c =>
                have hjlt : i + 1 < text.length := by
                  rcases List.get?_eq_some.mp hgj with ⟨h, _⟩; exact h
                have hdropj := drop_cons_of_get text (i + 1) c hgj
                rw [hdropi, hdropj]
                by_cases hc : c = '~'
                · subst hc
                  have hih := ih (i + 2) (i + 2) (Format.toggle_strikethrough fmt)
                    (acc ++ [((text.drop start).take (i - start), fmt)])
                    (by omega) (by omega) (by omega)
                  have e1 : i + 2 - (i + 2) = 0 := by omega
                  rw [e1] at hih
                  simp only [List.take_zero] at hih
                  simp only [scanIdxLoop, hgi, hgj, hslice, Option.some_bind, if_pos rfl]
                  rw [hih]
                  rfl
                · have hih := ih (i + 2) start fmt acc
                    (by omega) (by omega) (by omega)
                  have e1 : i + 2 - start = (i + 1 - start) + 1 := by omega
                  have e2 : (text.drop start).take (i + 2 - start)
                      = (text.drop start).take (i - start) ++ ['~', c] := by
                    have ha := extract_snoc text start (i + 1) c (by omega) hgj
                    have hb := extract_snoc text start i '~' hsi hgi
                    rw [e1]
                    have e3 : i + 1 - start + 1 = (i + 1) + 1 - start := by omega
                    rw [e3, ha, hb]
                    simp
                  rw [e2] at hih
                  simp only [scanIdxLoop, hgi, hgj, if_neg hc]
                  rw [hih]
                  simp [scanLoop, hc]
              | none =>
                have hje : i + 1 = text.length := by
                  have := List.get?_eq_none.mp hgj; omega
                rw [hdropi]
                have hih := ih (i + 1) start fmt acc (by omega) (by omega) (by omega)
                have e2 : (text.drop start).take (i + 1 - start)
                    = (text.drop start).take (i - start) ++ ['~'] :=
                  extract_snoc text start i '~' hsi hgi
                rw [e2] at hih
                simp only [scanIdxLoop, hgi, hgj]
                rw [hih]
                have hde : text.drop (i + 1) = [] := by
                  rw [hje, List.drop_length]
                rw [hde]
                rfl
            · rw [hdropi]
              have hih := ih (i + 1) start fmt acc (by omega) (by omega) (by omega)
              have e2 : (text.drop start).take (i + 1 - start)
                  = (text.drop start).take (i - start) ++ [ch] :=
                extract_snoc text start i ch hsi hgi
              rw [e2] at hih
              simp only [scanIdxLoop, hgi]
              rw [hih]
              simp [scanLoop, h1, h2, h3, h4]

/-- The index-based scanner never fails and produces exactly the run list
of `Paragraph::new`. -/
lemma scanIdx_eq (text : List Char) :
    scanIdx text = some (Paragraph.new text).render_slices := by
  unfold scanIdx Paragraph.new
  rw [scanIdxLoop_eq text (text.length + 1) 0 0 Format.new []
    (le_refl 0) (Nat.zero_le _) (by omega)]
  simp

/-- `renderLoop` emits exactly the transition codes of `renderTransitions`
interleaved with the run texts. -/
lemma renderLoop_eq_interleave :
    ∀ (slices : List (List Char × Format)) (prev : Format),
      renderLoop prev slices
        = interleave (renderTransitions prev slices) (slices.map Prod.fst) := by
  intro slices
  induction slices with
  | nil => intro prev; rfl
  | cons s rest ih =>
    intro prev
    obtain ⟨slice, format⟩ := s
    simp only [renderLoop, renderTransitions, List.map_cons, interleave, ih]

/-- Replaying the transitions `renderLoop` emits, starting from the empty
format, is well-chained and ends in the empty format. -/
lemma replay_renderTransitions :
    ∀ (slices : List (List Char × Format)) (prev : Format),
      replayTransitions prev (renderTransitions prev slices) = some Format.new := by
  intro slices
  induction slices with
  | nil => intro prev; simp [renderTransitions, replayTransitions]
  | cons s rest ih =>
    intro prev
    obtain ⟨slice, format⟩ := s
    simp only [renderTransitions, replayTransitions, if_pos rfl]
    exact ih format

/-- `splitNN` always yields at least one part. -/
lemma splitNN_ne_nil : ∀ (text cur : List Char), splitNN text cur ≠ [] := by
  intro text
  induction text with
  | nil => intro cur; simp [splitNN]
  | cons a rest ih =>
    intro cur
    cases rest with
    | nil =>
      by_cases ha : a = '\n' <;> simp [splitNN, ha]
    | cons b rest2 =>
      by_cases ha : a = '\n'
      · by_cases hb : b = '\n'
        · subst ha; subst hb; simp [splitNN]
        · subst ha
          have he : splitNN ('\n' :: b :: rest2) cur
              = splitNN (b :: rest2) (cur ++ ['\n']) := by
            simp [splitNN, hb]
          rw [he]
          exact ih (cur ++ ['\n'])
      · have he : splitNN (a :: b :: rest2) cur
            = splitNN (b :: rest2) (cur ++ [a]) := by
          simp [splitNN, ha]
        rw [he]
        exact ih (cur ++ [a])

/-- For a non-empty element list, the rendering fold ends with the
`"\n\n"` appended after the last element. -/
lemma render_foldl_ends :
    ∀ (elements : List Paragraph) (acc : String), elements ≠ [] →
      ∃ p : String,
        List.foldl (fun output element => output ++ element.render ++ "\n\n")
          acc elements = p ++ "\n\n" := by
  intro elements
  induction elements with
  | nil => intro acc h; exact absurd rfl h
  | cons e rest ih =>
    intro acc _
    cases rest with
    | nil => exact ⟨acc ++ e.render, rfl⟩
    | cons f rest2 =>
      simpa using ih (acc ++ e.render ++ "\n\n") (by simp)

lemma append_nn_ne_empty (s : String) : s ++ "\n\n" ≠ "" := by
  intro h
  have hlen := congrArg String.length h
  rw [String.length_append] at hlen
  have h2 : ("\n\n" : String).length = 2 := rfl
  have h0 : ("" : String).length = 0 := rfl
  rw [h2, h0] at hlen
  omega

/-! ## Claims -/

/-- C1, counterexample.  The claim says that after a lone tilde the
following character is still processed by its own dispatch rule, so
scanning `"~*a*"` would have to treat the first `*` as an italic toggle
and yield a literal `"~"` run followed by an italic `"a"` run.  The code
instead consumes the `*` inside the tilde's lookahead (`char_indices.next()`
in the `if let`), so it is never dispatched: the scan yields the single
unstyled run `"~*a"`. -/
theorem C1_counterexample :
    (Paragraph.new (String.toList "~*a*")).render_slices
        = [(String.toList "~*a", Format.new)] ∧
      (Paragraph.new (String.toList "~*a*")).render_slices
        ≠ [(String.toList "~", Format.new),
           (String.toList "a", Format.new.set_italic)] := by
  constructor
  · decide
  · decide

/-- C1, amended.  At a tilde whose next character is not another tilde
(or at end-of-input after a tilde) the scanner flushes nothing and leaves
`current_format` unchanged, and the tilde stays in the pending slice — but
the lookahead also consumes the following character: it is appended to the
pending slice together with the tilde and is never dispatched by its own
rule. -/
theorem C1_lone_tilde (c : Char) (rest pending : List Char) (fmt : Format)
    (acc : List (List Char × Format)) (h : c ≠ '~') :
    scanLoop ('~' :: c :: rest) fmt pending acc
        = scanLoop rest fmt (pending ++ ['~', c]) acc ∧
      scanLoop ['~'] fmt pending acc
        = scanLoop [] fmt (pending ++ ['~']) acc := by
  constructor
  · simp [scanLoop, h]
  · rfl

/-- Witness for `C1_lone_tilde` at `c := 'a'`. -/
theorem C1_lone_tilde_witness :
    scanLoop ['~', 'a'] Format.new [] []
        = scanLoop [] Format.new ['~', 'a'] [] ∧
      scanLoop ['~'] Format.new [] [] = scanLoop [] Format.new ['~'] [] :=
  C1_lone_tilde 'a' [] [] Format.new [] (by decide)

/-- C2, counterexample.  The claim says the character following a single
asterisk is still processed by its own dispatch rule — in particular a
following newline would still be replaced by a space.  Scanning `"a*\nb"`
the code consumes the newline inside the asterisk's lookahead, so the
newline rule never fires and the newline stays literally in the italic
run `"\nb"` instead of the claimed runs `" "` and `"b"`. -/
theorem C2_counterexample :
    (Paragraph.new (String.toList "a*\nb")).render_slices
        = [(String.toList "a", Format.new),
           (String.toList "\nb", Format.new.set_italic)] ∧
      (Paragraph.new (String.toList "a*\nb")).render_slices
        ≠ [(String.toList "a", Format.new),
           (String.toList " ", Format.new.set_italic),
           (String.toList "b", Format.new.set_italic)] := by
  constructor
  · decide
  · decide

/-- C2, amended.  At an asterisk whose next character is not another
asterisk the scanner flushes the pending slice under the current format
and toggles italic (never bold), and the next slice starts just past the
asterisk — but the lookahead also consumes the following character: it
becomes the first character of the new pending slice and is never
dispatched by its own rule.  At end-of-input the flush and the italic
toggle still happen. -/
theorem C2_single_asterisk (c : Char) (rest pending : List Char) (fmt : Format)
    (acc : List (List Char × Format)) (h : c ≠ '*') :
    scanLoop ('*' :: c :: rest) fmt pending acc
        = scanLoop rest (Format.toggle_italic fmt) [c] (acc ++ [(pending, fmt)]) ∧
      scanLoop ['*'] fmt pending acc
        = scanLoop [] (Format.toggle_italic fmt) [] (acc ++ [(pending, fmt)]) := by
  constructor
  · simp [scanLoop, h]
  · rfl

/-- Witness for `C2_single_asterisk` at `c := 'a'`. -/
theorem C2_single_asterisk_witness :
    scanLoop ['*', 'a'] Format.new [] []
        = scanLoop [] (Format.toggle_italic Format.new) ['a'] [([], Format.new)] ∧
      scanLoop ['*'] Format.new [] []
        = scanLoop [] (Format.toggle_italic Format.new) [] [([], Format.new)] :=
  C2_single_asterisk 'a' [] [] Format.new [] (by decide)

/-- C3.  A newline the scanner dispatches on flushes the pending slice
with exactly one space appended in place of the elided newline, under the
current format, and the next slice starts past the newline; the flushed
slice contains no newline beyond those already pending (the dispatched
newline itself never enters it). -/
theorem C3_newline (rest pending : List Char) (fmt : Format)
    (acc : List (List Char × Format)) :
    scanLoop ('\n' :: rest) fmt pending acc
        = scanLoop rest fmt [] (acc ++ [(pending ++ [' '], fmt)]) ∧
      (pending ++ [' ']).count '\n' = pending.count '\n' := by
  constructor
  · rfl
  · simp

/-- C4.  A backslash flushes the pending slice (not including the
backslash) under the current format; the one following character, if any,
is consumed unconditionally and starts the next slice as a literal with
no delimiter effect; a backslash that ends the input flushes the pending
slice and emits nothing for itself (the loop then finishes with an empty
pending slice). -/
theorem C4_backslash (c : Char) (rest pending : List Char) (fmt : Format)
    (acc : List (List Char × Format)) :
    scanLoop ('\\' :: c :: rest) fmt pending acc
        = scanLoop rest fmt [c] (acc ++ [(pending, fmt)]) ∧
      scanLoop ['\\'] fmt pending acc = acc ++ [(pending, fmt)] := by
  constructor
  · rfl
  · simp [scanLoop]

/-- C5.  For every pair of formats the transition-code function returns
exactly the end codes of the attributes in `previous` but not in
`current`, in the order bold, italic, strikethrough, followed by the
start codes of the attributes in `current` but not in `previous`, in the
same order, with the fixed literal codes; and the transition from any
format to itself is empty. -/
theorem C5_transition_codes :
    (∀ previous current : Format,
      Format.get_codes_for_format_change current previous
        = ((if previous.bold && !current.bold then "\x1b[22m" else "")
            ++ (if previous.italic && !current.italic then "\x1b[23m" else "")
            ++ (if previous.strikethrough && !current.strikethrough then "\x1b[29m"
                else ""))
          ++ ((if current.bold && !previous.bold then "\x1b[1m" else "")
            ++ (if current.italic && !previous.italic then "\x1b[3m" else "")
            ++ (if current.strikethrough && !previous.strikethrough then "\x1b[9m"
                else ""))) ∧
      (∀ s : Format, Format.get_codes_for_format_change s s = "") := by
  constructor
  · intro previous current
    obtain ⟨pb, pit, ps⟩ := previous
    obtain ⟨cb, cit, cs⟩ := current
    cases pb <;> cases pit <;> cases ps <;> cases cb <;> cases cit <;> cases cs <;> rfl
  · intro s
    obtain ⟨b, it, st⟩ := s
    cases b <;> cases it <;> cases st <;> rfl

/-- C6.  Rendering the empty run list yields the empty string; rendering
any run list emits, run by run, the transition codes from the previous
format (initially empty) followed by the run text, with one final
transition back to the empty format after the last run
(`renderTransitions` lists exactly those transitions, `interleave` places
the codes around the texts); and replaying the emitted transitions from
the empty format is well-chained and always ends in the empty format. -/
theorem C6_render_structure :
    Paragraph.render ⟨[]⟩ = "" ∧
      (∀ slices : List (List Char × Format),
        Paragraph.render ⟨slices⟩
          = interleave (renderTransitions Format.new slices)
              (slices.map Prod.fst)) ∧
      (∀ slices : List (List Char × Format),
        replayTransitions Format.new (renderTransitions Format.new slices)
          = some Format.new) := by
  refine ⟨rfl, ?_, ?_⟩
  · intro slices
    exact renderLoop_eq_interleave slices Format.new
  · intro slices
    exact replay_renderTransitions slices Format.new

/-- C7.  Styles are independent flags: `"**a *b** c*"` scans to overlapping
non-nested runs (bold; bold+italic; italic), and the concrete input
`"**lorem *ipsum* dolor**"` scans to the three claimed runs and renders
with italic closed before bold. -/
theorem C7_overlap_and_nesting :
    (Paragraph.new (String.toList "**a *b** c*")).render_slices
        = [(String.toList "a ", Format.new.set_bold),
           (String.toList "b", (Format.new.set_bold).set_italic),
           (String.toList " c", Format.new.set_italic)] ∧
      (Paragraph.new (String.toList "**lorem *ipsum* dolor**")).render_slices
        = [(String.toList "lorem ", Format.new.set_bold),
           (String.toList "ipsum", (Format.new.set_bold).set_italic),
           (String.toList " dolor", Format.new.set_bold)] ∧
      (Paragraph.new (String.toList "**lorem *ipsum* dolor**")).render
        = "\x1b[1mlorem \x1b[3mipsum\x1b[23m dolor\x1b[22m" := by
  refine ⟨?_, ?_, ?_⟩
  · decide
  · decide
  · decide

/-- C8.  No run produced by the scanner has an empty text slice: empty
slices are dropped by the `retain` before the run list is returned. -/
theorem C8_no_empty_slice (text : List Char) (r : List Char × Format)
    (h : r ∈ (Paragraph.new text).render_slices) : r.1 ≠ [] := by
  unfold Paragraph.new at h
  have hmem := List.mem_filter.mp h
  intro hc
  rw [hc] at hmem
  simp at hmem

/-- Witness for `C8_no_empty_slice` on the input `"a"`. -/
theorem C8_no_empty_slice_witness : (String.toList "a", Format.new).1 ≠ [] :=
  C8_no_empty_slice (String.toList "a") (String.toList "a", Format.new) (by decide)

/-- C9.  Scanning is total over every input: the index-based embedding of
the scanner, which performs the source's `text[a..b]` slicing with
explicit bounds checks, never fails on any input (so every slicing index
is in bounds) and always produces exactly `Paragraph::new`'s run list;
and unpaired toggles are tolerated silently — an unmatched `**` leaves
bold active on every run to the end of the paragraph, as on `"a**b c"`. -/
theorem C9_totality :
    (∀ text : List Char,
        scanIdx text = some (Paragraph.new text).render_slices) ∧
      (Paragraph.new (String.toList "a**b c")).render_slices
        = [(String.toList "a", Format.new),
           (String.toList "b c", Format.new.set_bold)] := by
  constructor
  · exact scanIdx_eq
  · decide

/-- C10.  `parse` splits on `"\n\n"` and always returns at least one
element, even for the empty string; `render` appends `"\n\n"` after every
element, so `render (parse text)` is never empty and always ends with
`"\n\n"`; in particular `render (parse "")` is exactly `"\n\n"`. -/
theorem C10_pipeline :
    (∀ text : List Char, parse text ≠ []) ∧
      (∀ text : List Char,
        render (parse text) ≠ "" ∧
          ∃ p : String, render (parse text) = p ++ "\n\n") ∧
      render (parse (String.toList "")) = "\n\n" := by
  refine ⟨?_, ?_, ?_⟩
  · intro text
    unfold parse
    simp [splitNN_ne_nil text []]
  · intro text
    have hne : parse text ≠ [] := by
      unfold parse
      simp [splitNN_ne_nil text []]
    obtain ⟨p, hp⟩ := render_foldl_ends (parse text) "" hne
    unfold render
    rw [hp]
    exact ⟨append_nn_ne_empty p, p, rfl⟩
  · decide

end Sani
